import Mathlib

/-!
# Verification of the search-api result-aggregation engine

A shallow embedding, in Lean 4, of the aggregation/cache core of the
`search-api` service (a Node.js search aggregation server), together with
theorems settling the specification's claims about it.

The embedding covers:
* the TTL/capacity-bounded cache (`cacheGet`, `cacheSet`, `getCacheStats`);
* the bounded-retry HTTP executor (`fetchWithRetry`);
* the per-category merge/dedup/rank pipelines of `webSearch`, `imageSearch`,
  `videoSearch` and `newsSearch`.

JavaScript `Map` objects are modelled as insertion-ordered association
lists (`Map.set` replaces in place or appends; `Map.delete` removes by key;
iteration follows insertion order), JS numbers as `Int`/`ℚ` with explicit
handling of the falsy-default idioms `x || d`, timestamps as `Int`
milliseconds, and the nondeterministic `Math.random()` source as an
explicit stream `Nat → ℚ` consumed one draw per call.
-/

set_option maxHeartbeats 1000000

namespace SearchApi

/-! ## Configuration constants (source lines 43–77) -/

/-- `RESULTS_PER_PAGE = 100` -/
def RESULTS_PER_PAGE : Nat := 100

/-- `TTL.short = 2 * 60 * 1000` ms -/
def TTLshort : Int := 2 * 60 * 1000

/-- `TTL.medium = 10 * 60 * 1000` ms -/
def TTLmedium : Int := 10 * 60 * 1000

/-- `TTL.long = 60 * 60 * 1000` ms -/
def TTLlong : Int := 60 * 60 * 1000

/-- `MAX_RETRIES = 5` -/
def MAX_RETRIES : Nat := 5

/-- `MAX_CACHE_SIZE = 10000` -/
def MAX_CACHE_SIZE : Nat := 10000

/-! ## Insertion-ordered association lists (model of a JS `Map`) -/

/-- `Map.get(k)`: value of the entry with key `k`, if present. -/
def assocGet {β : Type} (m : List (String × β)) (k : String) : Option β :=
  (m.find? (fun kv => kv.1 == k)).map (fun kv => kv.2)

/-- `Map.set(k, v)`: replace the value at `k` in place (keeping the entry's
position in insertion order), or append a new entry at the end. -/
def assocSet {β : Type} : List (String × β) → String → β → List (String × β)
  | [], k, v => [(k, v)]
  | kv :: rest, k, v =>
    if kv.1 == k then (k, v) :: rest else kv :: assocSet rest k v

/-- `Map.delete(k)`: drop the entry with key `k`. -/
def assocDelete {β : Type} (m : List (String × β)) (k : String) : List (String × β) :=
  m.filter (fun kv => kv.1 != k)

theorem assocGet_assocSet_self {β : Type} (m : List (String × β)) (k : String) (v : β) :
    assocGet (assocSet m k v) k = some v := by
  induction m with
  | nil => simp [assocGet, assocSet]
  | cons kv rest ih =>
    by_cases h : kv.1 == k
    · simp [assocSet, h, assocGet, List.find?]
    · simp only [assocSet, h, if_false, Bool.false_eq_true]
      simpa [assocGet, List.find?, h] using ih

theorem assocGet_assocSet_ne {β : Type} (m : List (String × β)) (k k' : String) (v : β)
    (h : k' ≠ k) : assocGet (assocSet m k v) k' = assocGet m k' := by
  have hkk : (k == k') = false := beq_eq_false_iff_ne.mpr (fun he => h he.symm)
  induction m with
  | nil => simp [assocGet, assocSet, List.find?, hkk]
  | cons kv rest ih =>
    by_cases hk : kv.1 == k
    · have hkv : (kv.1 == k') = false := by
        rw [beq_iff_eq] at hk
        exact beq_eq_false_iff_ne.mpr (by rw [hk]; exact fun he => h he.symm)
      simp [assocSet, hk, assocGet, List.find?, hkv, hkk]
    · by_cases hkv : kv.1 == k'
      · simp [assocSet, hk, assocGet, List.find?, hkv]
      · simp only [assocSet, hk, if_false, Bool.false_eq_true]
        simpa [assocGet, List.find?, hkv] using ih

theorem length_assocSet_le {β : Type} (m : List (String × β)) (k : String) (v : β) :
    (assocSet m k v).length ≤ m.length + 1 := by
  induction m with
  | nil => simp [assocSet]
  | cons kv rest ih =>
    by_cases h : kv.1 == k
    · simp [assocSet, h]
    · simp only [assocSet, h, if_false, Bool.false_eq_true, List.length_cons]
      omega

theorem assocGet_assocDelete_self {β : Type} (m : List (String × β)) (k : String) :
    assocGet (assocDelete m k) k = none := by
  induction m with
  | nil => simp [assocGet, assocDelete]
  | cons kv rest ih =>
    by_cases h : kv.1 == k
    · have hf : (kv.1 != k) = false := by simp [bne, h]
      rw [assocDelete, List.filter_cons, hf]
      exact ih
    · have hne : (kv.1 != k) = true := by simp [bne, h]
      rw [assocDelete, List.filter_cons, hne]
      simp only [if_true]
      rw [assocGet, List.find?]
      simp only [h, Bool.false_eq_true]
      exact ih

theorem length_assocDelete_le {β : Type} (m : List (String × β)) (k : String) :
    (assocDelete m k).length ≤ m.length :=
  List.length_filter_le _ m

theorem length_filter_lt_of_mem {β : Type} {p : β → Bool} {l : List β} {x : β}
    (hx : x ∈ l) (hp : p x = false) : (l.filter p).length < l.length := by
  induction l with
  | nil => cases hx
  | cons y ys ih =>
    rcases List.mem_cons.1 hx with rfl | hmem
    · simp only [List.filter, hp, List.length_cons]
      exact Nat.lt_succ_of_le (List.length_filter_le _ _)
    · cases hpy : p y
      · simp only [List.filter, hpy, List.length_cons]
        exact Nat.lt_succ_of_lt (ih hmem)
      · simp only [List.filter, hpy, List.length_cons]
        exact Nat.succ_lt_succ (ih hmem)

/-! ## Cache store (source lines 156–243)

The global `CACHE` map plus the `cacheHits`/`cacheMisses` counters form the
cache state.  Entries are `{ d, t, ttl }`: payload, stored/last-refreshed
time, and time-to-live in milliseconds.  The `try`/`catch` wrappers in the
source guard against internal faults that cannot arise in this pure model
and are not embedded. -/

structure CacheEntry (α : Type) where
  d : α
  t : Int
  ttl : Int
deriving Repr, DecidableEq

/-- The JS expression `entry.ttl || TTL.medium` (a `ttl` of `0` is falsy and
falls back to the medium TTL). -/
def entryTtl {α : Type} (e : CacheEntry α) : Int :=
  if e.ttl = 0 then TTLmedium else e.ttl

structure CacheState (α : Type) where
  store : List (String × CacheEntry α)
  hits : Nat
  misses : Nat
deriving Repr, DecidableEq

/-- `cacheGet(key)` at current time `now` (source lines 160–185): a missing
key counts a miss; an entry older than its TTL is deleted and counts a miss;
a fresh entry has its timestamp refreshed to `now` (`entry.t = Date.now()`),
counts a hit, and its payload is returned. -/
def cacheGet {α : Type} (now : Int) (key : String) (s : CacheState α) :
    Option α × CacheState α :=
  match assocGet s.store key with
  | none => (none, { s with misses := s.misses + 1 })
  | some e =>
    if now - e.t > entryTtl e then
      (none, { s with store := assocDelete s.store key, misses := s.misses + 1 })
    else
      (some e.d,
       { s with store := assocSet s.store key { e with t := now }, hits := s.hits + 1 })

/-- Stable ascending insertion by timestamp: an element is placed after all
already-sorted elements whose `t` is not greater, matching the stable JS
`entries.sort((a, b) => a[1].t - b[1].t)`. -/
def insertByTime {α : Type} (x : String × CacheEntry α) :
    List (String × CacheEntry α) → List (String × CacheEntry α)
  | [] => [x]
  | y :: ys => if x.2.t < y.2.t then x :: y :: ys else y :: insertByTime x ys

def sortByTime {α : Type} (m : List (String × CacheEntry α)) :
    List (String × CacheEntry α) :=
  m.foldl (fun acc x => insertByTime x acc) []

/-- The capacity cleanup inside `cacheSet` (source lines 189–207): sort all
entries by timestamp ascending, delete the oldest `Math.floor(size * 0.1)`
(embedded as `size / 10`), then sweep out every entry that is already past
its TTL. -/
def cacheCleanup {α : Type} (now : Int) (m : List (String × CacheEntry α)) :
    List (String × CacheEntry α) :=
  let entries := sortByTime m
  let toRemove := entries.length / 10
  let m1 := (entries.take toRemove).foldl (fun acc kv => assocDelete acc kv.1) m
  m1.filter (fun kv => ! decide (now - kv.2.t > entryTtl kv.2))

/-- `cacheSet(key, data, ttl)` at current time `now` (source lines 187–213):
if the store holds at least `maxSize` entries, run the cleanup first; then
unconditionally admit the new entry via `CACHE.set`.  The source uses the
global `MAX_CACHE_SIZE` for `maxSize`. -/
def cacheSet {α : Type} (maxSize : Nat) (now : Int) (key : String) (data : α)
    (ttl : Int) (s : CacheState α) : CacheState α :=
  let st := if maxSize ≤ s.store.length then cacheCleanup now s.store else s.store
  { s with store := assocSet st key ⟨data, now, ttl⟩ }

/-- `cacheClear()` (source lines 215–220). -/
def cacheClear {α : Type} (_s : CacheState α) : CacheState α :=
  ⟨[], 0, 0⟩

structure CacheStats where
  size : Nat
  hits : Nat
  misses : Nat
  maxSize : Nat
  expiredEntries : Nat
deriving Repr, DecidableEq

/-- `getCacheStats()` at current time `now` (source lines 222–243); the
`hitRate` percentage string is presentation-only and omitted. -/
def getCacheStats {α : Type} (now : Int) (maxSize : Nat) (s : CacheState α) : CacheStats :=
  ⟨s.store.length, s.hits, s.misses, maxSize,
   (s.store.filter (fun kv => decide (now - kv.2.t > entryTtl kv.2))).length⟩

/-! ## Cache lemmas -/

theorem insertByTime_perm {α : Type} (x : String × CacheEntry α)
    (l : List (String × CacheEntry α)) : (insertByTime x l).Perm (x :: l) := by
  induction l with
  | nil => simp [insertByTime]
  | cons y ys ih =>
    rw [insertByTime]
    by_cases h : x.2.t < y.2.t
    · simp [h]
    · simp only [h, if_false]
      exact (ih.cons y).trans (List.Perm.swap x y ys)

theorem sortByTime_perm {α : Type} (m : List (String × CacheEntry α)) :
    (sortByTime m).Perm m := by
  suffices h : ∀ (l acc : List (String × CacheEntry α)),
      (l.foldl (fun a x => insertByTime x a) acc).Perm (acc ++ l) by
    simpa using h m []
  intro l
  induction l with
  | nil => simp
  | cons x xs ih =>
    intro acc
    refine ((ih (insertByTime x acc)).trans ?_)
    exact ((insertByTime_perm x acc).append_right xs).trans List.perm_middle.symm

theorem length_foldl_assocDelete_le {α : Type} (l : List (String × CacheEntry α)) :
    ∀ m : List (String × CacheEntry α),
      (l.foldl (fun acc kv => assocDelete acc kv.1) m).length ≤ m.length := by
  induction l with
  | nil => intro m; simp
  | cons x xs ih =>
    intro m
    calc (List.foldl (fun acc kv => assocDelete acc kv.1) (assocDelete m x.1) xs).length
        ≤ (assocDelete m x.1).length := ih _
      _ ≤ m.length := length_assocDelete_le m x.1

theorem cacheCleanup_length_lt {α : Type} (now : Int)
    (m : List (String × CacheEntry α)) (hm : 10 ≤ m.length) :
    (cacheCleanup now m).length < m.length := by
  rw [cacheCleanup]
  have hperm := sortByTime_perm m
  have hlen : (sortByTime m).length = m.length := hperm.length_eq
  have htr : 1 ≤ (sortByTime m).length / 10 := by omega
  cases hE : sortByTime m with
  | nil => rw [hE] at hlen; simp at hlen; omega
  | cons e0 rest =>
    have he0 : e0 ∈ m := hperm.mem_iff.mp (by rw [hE]; exact List.mem_cons_self e0 rest)
    rw [hE] at hlen
    obtain ⟨tr, htr'⟩ : ∃ tr, (e0 :: rest).length / 10 = tr + 1 :=
      ⟨(e0 :: rest).length / 10 - 1, by omega⟩
    rw [htr', List.take_succ_cons, List.foldl_cons]
    have h1 : ((List.take tr rest).foldl (fun acc kv => assocDelete acc kv.1)
        (assocDelete m e0.1)).length ≤ (assocDelete m e0.1).length :=
      length_foldl_assocDelete_le _ _
    have h2 : (assocDelete m e0.1).length < m.length := by
      apply length_filter_lt_of_mem he0
      simp [bne]
    calc (((List.take tr rest).foldl (fun acc kv => assocDelete acc kv.1)
            (assocDelete m e0.1)).filter
              (fun kv => ! decide (now - kv.2.t > entryTtl kv.2))).length
        ≤ ((List.take tr rest).foldl (fun acc kv => assocDelete acc kv.1)
            (assocDelete m e0.1)).length := List.length_filter_le _ _
      _ ≤ (assocDelete m e0.1).length := h1
      _ < m.length := h2

/-- One `cacheSet` preserves the capacity bound (for a configured capacity of
at least 10, so that the 10% eviction removes at least one entry) and always
admits the new entry. -/
theorem cacheSet_preserves_bound {α : Type} (maxSize : Nat) (hmax : 10 ≤ maxSize)
    (now : Int) (key : String) (d : α) (ttl : Int) (s : CacheState α)
    (hs : s.store.length ≤ maxSize) :
    (cacheSet maxSize now key d ttl s).store.length ≤ maxSize ∧
    assocGet (cacheSet maxSize now key d ttl s).store key = some ⟨d, now, ttl⟩ := by
  refine ⟨?_, assocGet_assocSet_self _ _ _⟩
  rw [cacheSet]
  by_cases h : maxSize ≤ s.store.length
  · have hlt := cacheCleanup_length_lt now s.store (le_trans hmax h)
    have := length_assocSet_le (cacheCleanup now s.store) key (⟨d, now, ttl⟩ : CacheEntry α)
    simp only [h, if_pos]
    omega
  · have := length_assocSet_le s.store key (⟨d, now, ttl⟩ : CacheEntry α)
    simp only [h, if_neg, if_false]
    omega

/-- Replaying a sequence of reads of one key: each element of `times` is the
clock value of one `cacheGet key` call, in order. -/
def readSeq {α : Type} (key : String) (times : List Int) (s : CacheState α) :
    CacheState α :=
  times.foldl (fun st now => (cacheGet now key st).2) s

/-- The last element of `t0 :: ts`. -/
def lastTime (t0 : Int) (ts : List Int) : Int :=
  ts.foldl (fun _ b => b) t0

/-! ## Claim theorems: cache -/

/-- C6: `cacheGet` never returns an entry whose age exceeds its TTL.  For any
stored entry (with a nonzero `ttl`, as every call site stores): when
`now - t > ttl` the read returns `none`, bumps the miss counter, and evicts
the entry; when the entry is fresh the read returns the payload and bumps the
hit counter. -/
theorem cacheGet_never_stale {α : Type} (now : Int) (key : String) (s : CacheState α)
    (e : CacheEntry α) (hfind : assocGet s.store key = some e) (httl : e.ttl ≠ 0) :
    (e.ttl < now - e.t →
      (cacheGet now key s).1 = none ∧
      (cacheGet now key s).2.misses = s.misses + 1 ∧
      assocGet (cacheGet now key s).2.store key = none) ∧
    (now - e.t ≤ e.ttl →
      (cacheGet now key s).1 = some e.d ∧
      (cacheGet now key s).2.hits = s.hits + 1) := by
  have het : entryTtl e = e.ttl := if_neg httl
  constructor
  · intro hgt
    have hc : now - e.t > entryTtl e := by rw [het]; exact hgt
    simp [cacheGet, hfind, if_pos hc, assocGet_assocDelete_self]
  · intro hle
    have hc : ¬ (now - e.t > entryTtl e) := by rw [het]; omega
    simp [cacheGet, hfind, if_neg hc]

/-- C6 witness: `put("k", 42, ttl = 100)` at time 0, then `get("k")` at time
150 returns absent, counts a miss and evicts; `get("k")` at time 50 returns
the payload and counts a hit. -/
theorem cacheGet_never_stale_witness :
    (cacheGet 150 "k" (cacheSet MAX_CACHE_SIZE 0 "k" (42 : Nat) 100 ⟨[], 0, 0⟩)).1 = none ∧
    (cacheGet 150 "k" (cacheSet MAX_CACHE_SIZE 0 "k" (42 : Nat) 100 ⟨[], 0, 0⟩)).2.misses = 1 ∧
    assocGet (cacheGet 150 "k" (cacheSet MAX_CACHE_SIZE 0 "k" (42 : Nat) 100 ⟨[], 0, 0⟩)).2.store "k" = none ∧
    (cacheGet 50 "k" (cacheSet MAX_CACHE_SIZE 0 "k" (42 : Nat) 100 ⟨[], 0, 0⟩)).1 = some 42 ∧
    (cacheGet 50 "k" (cacheSet MAX_CACHE_SIZE 0 "k" (42 : Nat) 100 ⟨[], 0, 0⟩)).2.hits = 1 := by
  have h150 := cacheGet_never_stale 150 "k"
    (cacheSet MAX_CACHE_SIZE 0 "k" (42 : Nat) 100 ⟨[], 0, 0⟩)
    ⟨42, 0, 100⟩ (by decide) (by decide)
  have h50 := cacheGet_never_stale 50 "k"
    (cacheSet MAX_CACHE_SIZE 0 "k" (42 : Nat) 100 ⟨[], 0, 0⟩)
    ⟨42, 0, 100⟩ (by decide) (by decide)
  obtain ⟨ha, hb, hc⟩ := h150.1 (by decide)
  obtain ⟨hd, he⟩ := h50.2 (by decide)
  exact ⟨ha, hb, hc, hd, he⟩

/-- C7: the store never exceeds the configured capacity.  For any capacity of
at least 10 (the configured `MAX_CACHE_SIZE` is 10000): a single `cacheSet`
preserves `size ≤ maxSize` and always admits the new entry, and any sequence
of `cacheSet`s starting from the empty store keeps `stats().size ≤ maxSize`
(in particular inserting `maxSize + 1` distinct keys). -/
theorem cacheSet_capacity {α : Type} (maxSize : Nat) (hmax : 10 ≤ maxSize) :
    (∀ (now : Int) (key : String) (d : α) (ttl : Int) (s : CacheState α),
      s.store.length ≤ maxSize →
        (cacheSet maxSize now key d ttl s).store.length ≤ maxSize ∧
        assocGet (cacheSet maxSize now key d ttl s).store key = some ⟨d, now, ttl⟩) ∧
    (∀ ops : List (Int × String × α × Int),
      (getCacheStats 0 maxSize
        (ops.foldl (fun s op => cacheSet maxSize op.1 op.2.1 op.2.2.1 op.2.2.2 s)
          (⟨[], 0, 0⟩ : CacheState α))).size ≤ maxSize) := by
  refine ⟨fun now key d ttl s hs => cacheSet_preserves_bound maxSize hmax now key d ttl s hs, ?_⟩
  intro ops
  suffices h : ∀ (s : CacheState α), s.store.length ≤ maxSize →
      (ops.foldl (fun s op => cacheSet maxSize op.1 op.2.1 op.2.2.1 op.2.2.2 s) s).store.length
        ≤ maxSize by
    exact h ⟨[], 0, 0⟩ (by simp)
  induction ops with
  | nil => intro s hs; exact hs
  | cons op rest ih =>
    intro s hs
    exact ih _ (cacheSet_preserves_bound maxSize hmax op.1 op.2.1 op.2.2.1 op.2.2.2 s hs).1

/-- C7 witness: with the configured capacity 10000, a `cacheSet` on a store
holding one entry keeps the bound and admits the entry, and a concrete
sequence of three inserts from empty stays within the bound. -/
theorem cacheSet_capacity_witness :
    ((cacheSet MAX_CACHE_SIZE 5 "b" (7 : Nat) 100
        ⟨[("a", ⟨1, 0, 100⟩)], 0, 0⟩).store.length ≤ MAX_CACHE_SIZE ∧
      assocGet (cacheSet MAX_CACHE_SIZE 5 "b" (7 : Nat) 100
        ⟨[("a", ⟨1, 0, 100⟩)], 0, 0⟩).store "b" = some ⟨7, 5, 100⟩) ∧
    (getCacheStats 0 MAX_CACHE_SIZE
      (([(0, "a", 1, 100), (1, "b", 2, 100), (2, "c", 3, 100)] :
          List (Int × String × Nat × Int)).foldl
        (fun s op => cacheSet MAX_CACHE_SIZE op.1 op.2.1 op.2.2.1 op.2.2.2 s)
        ⟨[], 0, 0⟩)).size ≤ MAX_CACHE_SIZE := by
  have h := cacheSet_capacity (α := Nat) MAX_CACHE_SIZE (by decide)
  exact ⟨h.1 5 "b" 7 100 ⟨[("a", ⟨1, 0, 100⟩)], 0, 0⟩ (by decide),
         h.2 [(0, "a", 1, 100), (1, "b", 2, 100), (2, "c", 3, 100)]⟩

/-- C9: a fresh `cacheGet` rewrites the entry's stored timestamp to the read
time (`entry.t = Date.now()`), so expiry is measured from the most recent
hit: along any sequence of reads in which each read comes within the entry's
TTL of the previous one (starting from the insertion time), every read is a
hit, no miss is counted, and the entry survives with its timestamp equal to
the last read time — no matter how long ago it was put. -/
theorem cacheGet_refreshes_timestamp {α : Type} (key : String) (ts : List Int) :
    ∀ (s : CacheState α) (e : CacheEntry α),
      assocGet s.store key = some e →
      List.Chain (fun a b => b - a ≤ entryTtl e) e.t ts →
      (readSeq key ts s).hits = s.hits + ts.length ∧
      (readSeq key ts s).misses = s.misses ∧
      assocGet (readSeq key ts s).store key = some ⟨e.d, lastTime e.t ts, e.ttl⟩ := by
  induction ts with
  | nil =>
    intro s e hfind _
    refine ⟨by simp [readSeq], by simp [readSeq], ?_⟩
    simpa [readSeq, lastTime] using hfind
  | cons now ts' ih =>
    intro s e hfind hchain
    cases hchain with
    | cons hstep hchain' =>
      have hc : ¬ (now - e.t > entryTtl e) := by omega
      have hstore : (cacheGet now key s).2.store =
          assocSet s.store key ⟨e.d, now, e.ttl⟩ := by
        simp [cacheGet, hfind, if_neg hc]
      have hhits : (cacheGet now key s).2.hits = s.hits + 1 := by
        simp [cacheGet, hfind, if_neg hc]
      have hmiss : (cacheGet now key s).2.misses = s.misses := by
        simp [cacheGet, hfind, if_neg hc]
      have hfind' : assocGet (cacheGet now key s).2.store key =
          some ⟨e.d, now, e.ttl⟩ := by
        rw [hstore]; exact assocGet_assocSet_self _ _ _
      have hrec := ih (cacheGet now key s).2 ⟨e.d, now, e.ttl⟩ hfind' hchain'
      have hfold : readSeq key (now :: ts') s = readSeq key ts' (cacheGet now key s).2 := by
        simp [readSeq]
      rw [hfold]
      refine ⟨by rw [hrec.1, hhits]; simp; omega, by rw [hrec.2.1, hmiss], ?_⟩
      rw [hrec.2.2]
      simp [lastTime]

/-- C9 witness: an entry put at time 0 with `ttl = 100` and read at times 80,
160 and 240 — each read within 100ms of the previous — hits every time and
survives with its timestamp refreshed to 240, although 240 is far past the
insertion-relative expiry. -/
theorem cacheGet_refreshes_timestamp_witness :
    (readSeq "k" [80, 160, 240]
        (⟨[("k", ⟨7, 0, 100⟩)], 0, 0⟩ : CacheState Nat)).hits = 3 ∧
    (readSeq "k" [80, 160, 240]
        (⟨[("k", ⟨7, 0, 100⟩)], 0, 0⟩ : CacheState Nat)).misses = 0 ∧
    assocGet (readSeq "k" [80, 160, 240]
        (⟨[("k", ⟨7, 0, 100⟩)], 0, 0⟩ : CacheState Nat)).store "k" = some ⟨7, 240, 100⟩ := by
  have h := cacheGet_refreshes_timestamp "k" [80, 160, 240]
    (⟨[("k", ⟨7, 0, 100⟩)], 0, 0⟩ : CacheState Nat) ⟨7, 0, 100⟩ (by decide)
    (List.Chain.cons (by decide)
      (List.Chain.cons (by decide) (List.Chain.cons (by decide) List.Chain.nil)))
  exact ⟨h.1, h.2.1, h.2.2⟩

/-! ## Retry/backoff executor (`fetchWithRetry`, source lines 265–333)

One call to the underlying `fetch` is modelled by its outcome: a successful
response body, a non-OK HTTP response (with its status and optional
`retry-after` header, in seconds), or a thrown error (network failure or the
overall-timeout `AbortError`; wall-clock timing itself is not modelled — an
abort enters the model as a `thrown` outcome).  `script n` is the outcome of
the `n`-th fetch invocation.  The result records the terminal value, how
many times `fetch` was invoked, and every backoff delay (ms) that was
awaited.  `Except.error none` models JavaScript `throw lastError` with
`lastError` still `undefined`. -/

inductive FetchOutcome (α : Type) where
  | ok (body : α)
  | httpError (status : Nat) (retryAfter : Option Int)
  | thrown (msg : String)
deriving Repr, DecidableEq

deriving instance DecidableEq for Except

structure FetchResult (α : Type) where
  result : Except (Option String) α
  fetches : Nat
  delays : List Int
deriving Repr, DecidableEq

/-- The body of the `for (attempt = 0; attempt < maxRetries; attempt++)` loop.
`remaining` counts the loop iterations left, so the current attempt index is
`maxRetries - remaining`.  A non-OK response with status 429 or ≥ 500 waits
(`retry-after * 1000` or `1000 * (attempt + 1)`) and continues; any other
non-OK status raises `HTTP <status>` — a throw that the surrounding `catch`
block receives.  The catch block records the error into `lastError`, rethrows
a wrapping `Failed after <maxRetries> attempts` error when the attempt was the
last one, and otherwise waits `1000 * 2^attempt` and continues.  When the loop
exhausts without an in-loop throw, `throw lastError` runs — with `lastError`
still unset (`none`) if every attempt ended in the retryable-status branch.
(The human-readable `statusText` part of the message is omitted.) -/
def fetchGo {α : Type} (script : Nat → FetchOutcome α) (maxRetries : Nat) :
    Nat → Option String → Nat → List Int → FetchResult α
  | 0, lastError, count, delays => ⟨.error lastError, count, delays⟩
  | remaining + 1, lastError, count, delays =>
    let attempt := maxRetries - (remaining + 1)
    match script attempt with
    | .ok body => ⟨.ok body, count + 1, delays⟩
    | .httpError status retryAfter =>
      if status = 429 ∨ 500 ≤ status then
        let waitTime := match retryAfter with
          | some ra => ra * 1000
          | none => 1000 * ((attempt : Int) + 1)
        fetchGo script maxRetries remaining lastError (count + 1) (delays ++ [waitTime])
      else
        let msg := "HTTP " ++ toString status
        if remaining = 0 then
          ⟨.error (some ("Failed after " ++ toString maxRetries ++ " attempts: " ++ msg)),
           count + 1, delays⟩
        else
          fetchGo script maxRetries remaining (some msg) (count + 1)
            (delays ++ [1000 * 2 ^ attempt])
    | .thrown msg =>
      if remaining = 0 then
        ⟨.error (some ("Failed after " ++ toString maxRetries ++ " attempts: " ++ msg)),
         count + 1, delays⟩
      else
        fetchGo script maxRetries remaining (some msg) (count + 1)
          (delays ++ [1000 * 2 ^ attempt])

/-- `fetchWithRetry(url, options, maxRetries)`: run the attempt loop from the
start (`lastError` unset, no fetches yet, no delays). -/
def fetchWithRetry {α : Type} (script : Nat → FetchOutcome α) (maxRetries : Nat) :
    FetchResult α :=
  fetchGo script maxRetries maxRetries none 0 []

/-- The message the `catch` block receives for an attempt outcome, when the
outcome is caught there: a thrown error directly, or the `HTTP <status>`
error raised for a non-OK status that is neither 429 nor 5xx.  `none` means
the attempt does not reach the catch block (success, or the retryable-status
branch). -/
def attemptCaught {α : Type} (o : FetchOutcome α) : Option String :=
  match o with
  | .ok _ => none
  | .httpError st _ => if st = 429 ∨ 500 ≤ st then none else some ("HTTP " ++ toString st)
  | .thrown m => some m

theorem fetchGo_all_caught {α : Type} (script : Nat → FetchOutcome α)
    (maxRetries : Nat) (msg : Nat → String)
    (hs : ∀ n, attemptCaught (script n) = some (msg n)) :
    ∀ r, 1 ≤ r → r ≤ maxRetries → ∀ (le : Option String) (cnt : Nat) (ds : List Int),
      fetchGo script maxRetries r le cnt ds =
        ⟨.error (some ("Failed after " ++ toString maxRetries ++ " attempts: " ++
            msg (maxRetries - 1))),
         cnt + r,
         ds ++ (List.range (r - 1)).map (fun i => (1000 : Int) * 2 ^ (maxRetries - r + i))⟩ := by
  intro r
  induction r with
  | zero => omega
  | succ r' ih =>
    intro _ hle le cnt ds
    have hmsg := hs (maxRetries - (r' + 1))
    have hstep : fetchGo script maxRetries (r' + 1) le cnt ds =
        if r' = 0 then
          ⟨.error (some ("Failed after " ++ toString maxRetries ++ " attempts: " ++
              msg (maxRetries - (r' + 1)))), cnt + 1, ds⟩
        else
          fetchGo script maxRetries r' (some (msg (maxRetries - (r' + 1)))) (cnt + 1)
            (ds ++ [(1000 : Int) * 2 ^ (maxRetries - (r' + 1))]) := by
      cases hscript : script (maxRetries - (r' + 1)) with
      | ok body => rw [hscript] at hmsg; simp [attemptCaught] at hmsg
      | httpError st ra =>
        rw [hscript] at hmsg
        by_cases hret : st = 429 ∨ 500 ≤ st
        · simp [attemptCaught, hret] at hmsg
        · simp only [attemptCaught, hret, if_neg, if_false, Option.some.injEq] at hmsg
          simp only [fetchGo, hscript, hret, if_false]
          rw [hmsg]
      | thrown m =>
        rw [hscript] at hmsg
        simp only [attemptCaught, Option.some.injEq] at hmsg
        simp only [fetchGo, hscript]
        rw [hmsg]
    rw [hstep]
    by_cases hr : r' = 0
    · subst hr
      simp only [if_pos rfl]
      have : maxRetries - 1 = maxRetries - (0 + 1) := by omega
      rw [this]
      simp
    · rw [if_neg hr]
      rw [ih (by omega) (by omega) (some (msg (maxRetries - (r' + 1)))) (cnt + 1)
        (ds ++ [(1000 : Int) * 2 ^ (maxRetries - (r' + 1))])]
      simp only [FetchResult.mk.injEq]
      refine ⟨trivial, by omega, ?_⟩
      rw [List.append_assoc]
      refine congrArg _ ?_
      have hr1 : r' + 1 - 1 = (r' - 1) + 1 := by omega
      rw [hr1, List.range_succ_eq_map, List.map_cons, List.map_map, List.singleton_append]
      refine congrArg₂ _ (by norm_num) ?_
      refine List.map_congr_left (fun i _ => ?_)
      have hx : maxRetries - (r' + 1) + (i + 1) = maxRetries - r' + i := by omega
      simp only [Function.comp_apply, Nat.succ_eq_add_one, hx]

theorem fetchGo_all_retryable {α : Type} (script : Nat → FetchOutcome α)
    (maxRetries : Nat)
    (hs : ∀ n, ∃ st, script n = .httpError st none ∧ (st = 429 ∨ 500 ≤ st)) :
    ∀ r, r ≤ maxRetries → ∀ (le : Option String) (cnt : Nat) (ds : List Int),
      fetchGo script maxRetries r le cnt ds =
        ⟨.error le, cnt + r,
         ds ++ (List.range r).map
           (fun i => (1000 : Int) * (((maxRetries - r + i : Nat) : Int) + 1))⟩ := by
  intro r
  induction r with
  | zero => intro _ le cnt ds; simp [fetchGo]
  | succ r' ih =>
    intro hle le cnt ds
    obtain ⟨st, hscript, hret⟩ := hs (maxRetries - (r' + 1))
    have hstep : fetchGo script maxRetries (r' + 1) le cnt ds =
        fetchGo script maxRetries r' le (cnt + 1)
          (ds ++ [(1000 : Int) * ((maxRetries - (r' + 1) : Nat) + 1)]) := by
      simp only [fetchGo, hscript, hret, if_pos]
    rw [hstep, ih (by omega) le (cnt + 1) _]
    simp only [FetchResult.mk.injEq]
    refine ⟨trivial, by omega, ?_⟩
    rw [List.append_assoc]
    refine congrArg _ ?_
    rw [List.range_succ_eq_map, List.map_cons, List.map_map, List.singleton_append]
    refine congrArg₂ _ (by norm_num) ?_
    refine List.map_congr_left (fun i _ => ?_)
    have hx : maxRetries - (r' + 1) + (i + 1) = maxRetries - r' + i := by omega
    simp only [Function.comp_apply, Nat.succ_eq_add_one, hx]

/-! ## Claim theorems: retry executor -/

/-- C3 counterexample: a response with the non-retryable status 404 on every
attempt does **not** surface immediately — with `maxRetries = 5` the
underlying fetch is invoked 5 times (not 1) and four exponential backoff
delays are awaited (the claim requires one attempt and no delay).  The
in-loop `throw new Error("HTTP 404...")` is caught by the surrounding
`catch`, which retries it like any other error. -/
theorem fetch4xx_not_immediate :
    (fetchWithRetry (fun _ => (FetchOutcome.httpError 404 none : FetchOutcome Nat)) 5).fetches
        = 5 ∧
    (fetchWithRetry (fun _ => (FetchOutcome.httpError 404 none : FetchOutcome Nat)) 5).delays
        = [1000, 2000, 4000, 8000] := by
  exact ⟨rfl, rfl⟩

/-- C3 amended: a non-retryable failure (4xx-equivalent other than 429, via
the caught `HTTP <status>` throw, or any thrown/parse error) is retried with
exponential backoff `1000 * 2^attempt` like every caught error; it surfaces
as a terminal failure only after the last attempt, wrapped in a
`Failed after <maxRetries> attempts` error. -/
theorem fetch_nonretryable_retried_with_backoff (status maxRetries : Nat)
    (hst : ¬(status = 429 ∨ 500 ≤ status)) (hmr : 1 ≤ maxRetries) :
    fetchWithRetry (fun _ => (FetchOutcome.httpError status none : FetchOutcome Nat)) maxRetries =
      ⟨.error (some ("Failed after " ++ toString maxRetries ++ " attempts: " ++
          ("HTTP " ++ toString status))),
       maxRetries,
       (List.range (maxRetries - 1)).map (fun i => (1000 : Int) * 2 ^ i)⟩ := by
  rw [fetchWithRetry]
  rw [fetchGo_all_caught (fun _ => (FetchOutcome.httpError status none : FetchOutcome Nat))
    maxRetries (fun _ => "HTTP " ++ toString status)
    (fun _ => by simp [attemptCaught, hst]) maxRetries hmr (le_refl _) none 0 []]
  simp only [FetchResult.mk.injEq]
  refine ⟨trivial, by omega, ?_⟩
  simp only [Nat.sub_self, Nat.zero_add, List.nil_append]

/-- C3 amended witness: at status 404 and the default budget of 5 attempts,
the executor performs 5 fetches, waits 1s, 2s, 4s, 8s between them, and then
fails with the wrapping error. -/
theorem fetch_nonretryable_retried_with_backoff_witness :
    fetchWithRetry (fun _ => (FetchOutcome.httpError 404 none : FetchOutcome Nat)) 5 =
      ⟨.error (some "Failed after 5 attempts: HTTP 404"), 5, [1000, 2000, 4000, 8000]⟩ := by
  rw [fetch_nonretryable_retried_with_backoff 404 5 (by decide) (by decide)]
  rfl

/-- C4: an operation failing with a 500-equivalent on every attempt is
invoked exactly `maxRetries` times — but the terminal failure does **not**
wrap the last underlying error: the loop exits and runs `throw lastError`
with `lastError` never assigned (the HTTP-status retry branch skips the
`catch` block that records it), so JavaScript `undefined` is thrown
(modelled as `.error none`) and all error information is lost.  A linear
backoff delay is awaited after every attempt, including the last. -/
theorem fetch500_exhausts_budget_throws_undefined (maxRetries : Nat) :
    fetchWithRetry (fun _ => (FetchOutcome.httpError 500 none : FetchOutcome Nat)) maxRetries =
      ⟨.error none, maxRetries,
       (List.range maxRetries).map (fun i => (1000 : Int) * (((i : Nat) : Int) + 1))⟩ := by
  rw [fetchWithRetry]
  rw [fetchGo_all_retryable (fun _ => (FetchOutcome.httpError 500 none : FetchOutcome Nat))
    maxRetries (fun _ => ⟨500, rfl, by omega⟩) maxRetries (le_refl _) none 0 []]
  simp only [FetchResult.mk.injEq]
  refine ⟨trivial, by omega, ?_⟩
  simp only [List.nil_append, Nat.sub_self, Nat.zero_add]

/-- C4 evaluation at the failing input: with the default `MAX_RETRIES = 5`
budget and HTTP 500 on every attempt, the fetch runs 5 times and the terminal
throw carries no error (`undefined`). -/
theorem fetch500_default_budget :
    fetchWithRetry (fun _ => (FetchOutcome.httpError 500 none : FetchOutcome Nat)) MAX_RETRIES =
      ⟨.error none, 5, [1000, 2000, 3000, 4000, 5000]⟩ := by
  exact rfl

/-! ## Web search merge/dedup/rank (`webSearch`, source lines 1117–1245)

Provider scores and weights are JS numbers, embedded as `ℚ`.  A provider
result (`RawItem`) carries the fields the merge step reads: its `url`
(possibly missing) and its optional provider-reported `score`; `title` and
`snippet` stand for the payload fields that are carried through untouched.
An enriched item (`WebItem`) additionally carries `source` and the computed
`weightScore` — `weightScore` is `none` for backfill items, which are spread
into `allResults` without one.  (The `safeSearch` tag added alongside
`source` does not influence merge/dedup/rank and is not modelled.) -/

/-- The JS numeric-defaulting idiom `x || d`: `undefined` and `0` are falsy. -/
def jsNum (x : Option ℚ) (d : ℚ) : ℚ :=
  match x with
  | none => d
  | some s => if s = 0 then d else s

/-- Truthiness of an optional string (`undefined` and `""` are falsy). -/
def jsTruthyStr (x : Option String) : Bool :=
  match x with
  | none => false
  | some s => s != ""

structure RawItem where
  title : String
  snippet : String
  url : Option String
  score : Option ℚ
deriving Repr, DecidableEq

structure WebItem where
  title : String
  snippet : String
  url : Option String
  score : Option ℚ
  source : String
  weightScore : Option ℚ
deriving Repr, DecidableEq

/-- One provider's settled outcome, as assembled by the `.then`/`.catch`
wrappers (source lines 1139–1152): name, items (empty on failure), optional
error message, and the registered weight. -/
structure ProviderOutcome where
  name : String
  results : List RawItem
  error : Option String
  weight : ℚ
deriving Repr, DecidableEq

/-- Enrichment of one provider result (source lines 1169–1174):
`weightScore = (provider.weight || 1) * (r.score || 1)`. -/
def enrichItem (name : String) (weight : ℚ) (r : RawItem) : WebItem :=
  ⟨r.title, r.snippet, r.url, r.score, name,
   some (jsNum (some weight) 1 * jsNum r.score 1)⟩

/-- The provider-results loop (source lines 1156–1180): a truthy `error`
appends one entry to `errors` and skips the provider (`continue`); otherwise
a non-empty result list is enriched and appended to `allResults`. -/
def outcomeStep (acc : List WebItem × List (String × String)) (p : ProviderOutcome) :
    List WebItem × List (String × String) :=
  if jsTruthyStr p.error then
    (acc.1, acc.2 ++ [(p.name, p.error.getD "")])
  else if 0 < p.results.length then
    (acc.1 ++ p.results.map (enrichItem p.name p.weight), acc.2)
  else
    acc

def processOutcomes (os : List ProviderOutcome) :
    List WebItem × List (String × String) :=
  os.foldl outcomeStep ([], [])

/-- The per-provider error records that `webSearch` accumulates (and logs,
source lines 1157–1162 and 1239–1241). -/
def webErrors (os : List ProviderOutcome) : List (String × String) :=
  (processOutcomes os).2

/-- One backfill page of results (source lines 1203–1215): `result.name` with
page tag (the `source` string), and the page's items.  Backfill items are
spread in without a `weightScore`. -/
def backfillWrap (name : String) (r : RawItem) : WebItem :=
  ⟨r.title, r.snippet, r.url, r.score, name, none⟩

def backfillItems (bf : List (String × List RawItem)) : List WebItem :=
  bf.foldl
    (fun acc page =>
      if 0 < page.2.length then acc ++ page.2.map (backfillWrap page.1) else acc)
    []

/-- `allResults` just before dedup (source lines 1156–1216): the enriched
primary results, extended by the backfill pages when the primary merge fell
short of `RESULTS_PER_PAGE` items.  The backfill pages are live supplementary
calls; their settled results enter the model as the `bf` argument. -/
def webAllResults (os : List ProviderOutcome) (bf : List (String × List RawItem)) :
    List WebItem :=
  let primary := (processOutcomes os).1
  if primary.length < RESULTS_PER_PAGE then primary ++ backfillItems bf else primary

/-- `result.weightScore || 0` — the value the dedup comparison and the final
sort read (source lines 1225 and 1231). -/
def wsVal (i : WebItem) : ℚ :=
  match i.weightScore with
  | none => 0
  | some s => s

/-- One iteration of the dedup loop (source lines 1221–1228): skip items with
a falsy `url`; otherwise `seenUrls.set(url, result)` when the url is new or
the incoming item's `weightScore || 0` is strictly higher than the stored
one's. -/
def dedupStep (m : List (String × WebItem)) (r : WebItem) : List (String × WebItem) :=
  match r.url with
  | none => m
  | some u =>
    if u = "" then m
    else
      match assocGet m u with
      | none => assocSet m u r
      | some ex => if wsVal ex < wsVal r then assocSet m u r else m

/-- `uniqueResults` (source lines 1218–1230): the values of the `seenUrls`
map, in key-insertion order. -/
def dedupByUrl (items : List WebItem) : List WebItem :=
  (items.foldl dedupStep []).map (fun kv => kv.2)

/-- Stable descending insertion by `weightScore || 0`, matching the stable JS
`uniqueResults.sort((a, b) => (b.weightScore || 0) - (a.weightScore || 0))`
(source line 1231). -/
def insertByWs (x : WebItem) : List WebItem → List WebItem
  | [] => [x]
  | y :: ys => if wsVal y < wsVal x then x :: y :: ys else y :: insertByWs x ys

def sortByWs (l : List WebItem) : List WebItem :=
  l.foldl (fun acc x => insertByWs x acc) []

/-- The full pure merge pipeline of `webSearch` after the provider promises
settle (source lines 1156–1244): collect, optionally backfill, dedup by url,
sort by `weightScore` descending, and slice out the requested page
(`slice(start, start + RESULTS_PER_PAGE)`). -/
def webSearchCollect (os : List ProviderOutcome) (bf : List (String × List RawItem))
    (page : Nat) : List WebItem :=
  let uniqueResults := dedupByUrl (webAllResults os bf)
  let sorted := sortByWs uniqueResults
  (sorted.drop ((page - 1) * RESULTS_PER_PAGE)).take RESULTS_PER_PAGE

/-! ## Association-list lemmas for the dedup map -/

theorem assocGet_mem {β : Type} {m : List (String × β)} {k : String} {v : β}
    (h : assocGet m k = some v) : (k, v) ∈ m := by
  rw [assocGet] at h
  cases hf : m.find? (fun kv => kv.1 == k) with
  | none => rw [hf] at h; simp at h
  | some kv0 =>
    rw [hf] at h
    simp only [Option.map_some', Option.some.injEq] at h
    have hp := List.find?_some hf
    have hmem := List.mem_of_find?_eq_some hf
    rw [beq_iff_eq] at hp
    have : kv0 = (k, v) := Prod.ext hp h
    rw [← this]
    exact hmem

theorem assocGet_none_forall {β : Type} {m : List (String × β)} {k : String}
    (h : assocGet m k = none) : ∀ kv ∈ m, kv.1 ≠ k := by
  rw [assocGet, Option.map_eq_none', List.find?_eq_none] at h
  intro kv hkv
  simpa using h kv hkv

theorem assocSet_of_absent {β : Type} {m : List (String × β)} {k : String} (v : β)
    (h : assocGet m k = none) : assocSet m k v = m ++ [(k, v)] := by
  induction m with
  | nil => simp [assocSet]
  | cons kv rest ih =>
    have hk : kv.1 ≠ k := assocGet_none_forall h kv (List.mem_cons_self kv rest)
    have hrest : assocGet rest k = none := by
      rw [assocGet] at h ⊢
      rw [List.find?] at h
      rcases hc : (kv.1 == k) with _ | _
      · rw [hc] at h; exact h
      · rw [beq_iff_eq] at hc; exact absurd hc hk
    rw [assocSet]
    rw [if_neg (by simp [hk]), ih hrest]
    simp

theorem mem_assocSet {β : Type} {m : List (String × β)} {k : String} {v : β}
    {kv' : String × β} (hnd : (m.map Prod.fst).Nodup)
    (h : kv' ∈ assocSet m k v) : kv' = (k, v) ∨ (kv' ∈ m ∧ kv'.1 ≠ k) := by
  induction m with
  | nil => simp [assocSet] at h; left; exact h
  | cons kv rest ih =>
    rw [List.map_cons, List.nodup_cons] at hnd
    rw [assocSet] at h
    by_cases hk : kv.1 == k
    · rw [if_pos hk] at h
      rw [beq_iff_eq] at hk
      rcases List.mem_cons.1 h with rfl | hmem
      · left; rfl
      · right
        refine ⟨List.mem_cons_of_mem kv hmem, ?_⟩
        intro hc
        exact hnd.1 (by rw [hk, ← hc]; exact List.mem_map_of_mem _ hmem)
    · rw [if_neg hk] at h
      rcases List.mem_cons.1 h with rfl | hmem
      · right
        exact ⟨List.mem_cons_self kv' rest, by simpa using hk⟩
      · rcases ih hnd.2 hmem with hl | hr
        · left; exact hl
        · right; exact ⟨List.mem_cons_of_mem kv hr.1, hr.2⟩

theorem map_fst_assocSet_of_present {β : Type} {m : List (String × β)} {k : String}
    (v : β) {ex : β} (h : assocGet m k = some ex) :
    (assocSet m k v).map Prod.fst = m.map Prod.fst := by
  induction m with
  | nil => rw [assocGet] at h; simp at h
  | cons kv rest ih =>
    by_cases hk : kv.1 == k
    · rw [assocSet, if_pos hk]
      rw [beq_iff_eq] at hk
      simp [hk]
    · have hrest : assocGet rest k = some ex := by
        rw [assocGet] at h ⊢
        rw [List.find?] at h
        rcases hc : (kv.1 == k) with _ | _
        · rw [hc] at h; exact h
        · rw [hc] at hk; exact absurd rfl hk
      rw [assocSet, if_neg hk]
      simp [ih hrest]

theorem assocGet_of_mem_nodup {β : Type} {m : List (String × β)}
    (hnd : (m.map Prod.fst).Nodup) {kv : String × β} (h : kv ∈ m) :
    assocGet m kv.1 = some kv.2 := by
  induction m with
  | nil => cases h
  | cons hd rest ih =>
    rw [List.map_cons, List.nodup_cons] at hnd
    rcases List.mem_cons.1 h with rfl | hmem
    · simp [assocGet, List.find?]
    · have hne : hd.1 ≠ kv.1 := by
        intro hc
        exact hnd.1 (by rw [hc]; exact List.mem_map_of_mem _ hmem)
      rw [assocGet, List.find?]
      rcases hc : (hd.1 == kv.1) with _ | _
      · exact ih hnd.2 hmem
      · rw [beq_iff_eq] at hc; exact absurd hc hne

theorem isSome_assocGet_assocSet {β : Type} (m : List (String × β)) (k u : String)
    (v : β) (h : (assocGet m u).isSome) : (assocGet (assocSet m k v) u).isSome := by
  by_cases hu : u = k
  · subst hu; rw [assocGet_assocSet_self]; rfl
  · rw [assocGet_assocSet_ne m k u v hu]; exact h

/-! ## The dedup-loop invariant -/

/-- Invariant of the `seenUrls` map after processing the prefix `processed`
of `allResults`: keys are distinct non-empty urls; every stored item is one
of the processed occurrences of its key, carries that key as its url, and has
the maximal `weightScore || 0` among all processed occurrences of its url;
and every processed item with a truthy url has an entry under that url. -/
def DedupInv (processed : List WebItem) (m : List (String × WebItem)) : Prop :=
  ((m.map Prod.fst).Nodup) ∧
  (∀ kv ∈ m, kv.2.url = some kv.1 ∧ kv.1 ≠ "" ∧ kv.2 ∈ processed ∧
     (∀ i ∈ processed, i.url = some kv.1 → wsVal i ≤ wsVal kv.2)) ∧
  (∀ i ∈ processed, ∀ u, i.url = some u → u ≠ "" → (assocGet m u).isSome)

theorem dedupStep_inv {pr : List WebItem} {m : List (String × WebItem)} (r : WebItem)
    (h : DedupInv pr m) : DedupInv (pr ++ [r]) (dedupStep m r) := by
  obtain ⟨hnd, hent, hcomp⟩ := h
  rcases hurl : r.url with _ | u
  · -- !result.url (undefined): item skipped, map unchanged
    simp only [dedupStep, hurl]
    refine ⟨hnd, fun kv hkv => ?_, fun i hi u hu hne => ?_⟩
    · obtain ⟨h1, h2, h3, h4⟩ := hent kv hkv
      refine ⟨h1, h2, List.mem_append_left _ h3, fun i hi hiu => ?_⟩
      rcases List.mem_append.1 hi with hi | hi
      · exact h4 i hi hiu
      · rw [List.mem_singleton.1 hi] at hiu; rw [hurl] at hiu; cases hiu
    · rcases List.mem_append.1 hi with hi | hi
      · exact hcomp i hi u hu hne
      · rw [List.mem_singleton.1 hi] at hu; rw [hurl] at hu; cases hu
  · simp only [dedupStep, hurl]
    by_cases hemp : u = ""
    · -- !result.url ("" is falsy): item skipped, map unchanged
      rw [if_pos hemp]
      refine ⟨hnd, fun kv hkv => ?_, fun i hi u' hu' hne' => ?_⟩
      · obtain ⟨h1, h2, h3, h4⟩ := hent kv hkv
        refine ⟨h1, h2, List.mem_append_left _ h3, fun i hi hiu => ?_⟩
        rcases List.mem_append.1 hi with hi | hi
        · exact h4 i hi hiu
        · rw [List.mem_singleton.1 hi] at hiu
          rw [hurl] at hiu
          rw [hemp] at hiu
          injection hiu with hiu
          exact absurd hiu.symm h2
      · rcases List.mem_append.1 hi with hi | hi
        · exact hcomp i hi u' hu' hne'
        · rw [List.mem_singleton.1 hi] at hu'
          rw [hurl] at hu'
          injection hu' with hu'
          rw [hemp] at hu'
          exact absurd hu'.symm hne'
    · rw [if_neg hemp]
      rcases hget : assocGet m u with _ | ex
      · -- url unseen: append a new entry
        rw [assocSet_of_absent r hget]
        refine ⟨?_, fun kv hkv => ?_, fun i hi u' hu' hne' => ?_⟩
        · rw [List.map_append, List.nodup_append]
          refine ⟨hnd, by simp, ?_⟩
          intro a ha hb
          simp only [List.map_cons, List.map_nil, List.mem_singleton] at hb
          subst hb
          obtain ⟨kv, hkv, hkv1⟩ := List.mem_map.1 ha
          exact assocGet_none_forall hget kv hkv hkv1
        · rcases List.mem_append.1 hkv with hkv | hkv
          · obtain ⟨h1, h2, h3, h4⟩ := hent kv hkv
            have hku : kv.1 ≠ u := assocGet_none_forall hget kv hkv
            refine ⟨h1, h2, List.mem_append_left _ h3, fun i hi hiu => ?_⟩
            rcases List.mem_append.1 hi with hi | hi
            · exact h4 i hi hiu
            · rw [List.mem_singleton.1 hi] at hiu
              rw [hurl] at hiu
              injection hiu with hiu
              exact absurd hiu.symm hku
          · rw [List.mem_singleton.1 hkv]
            refine ⟨hurl, hemp, List.mem_append_right _ (List.mem_singleton_self r),
              fun i hi hiu => ?_⟩
            rcases List.mem_append.1 hi with hi | hi
            · exfalso
              have := hcomp i hi u (by simpa using hiu) hemp
              rw [hget] at this
              cases this
            · rw [List.mem_singleton.1 hi]
        · rcases List.mem_append.1 hi with hi | hi
          · rw [← assocSet_of_absent r hget]
            exact isSome_assocGet_assocSet m u u' r (hcomp i hi u' hu' hne')
          · rw [List.mem_singleton.1 hi] at hu'
            rw [hurl] at hu'
            injection hu' with hu'
            subst hu'
            rw [← assocSet_of_absent r hget, assocGet_assocSet_self]
            rfl
      · show DedupInv (pr ++ [r]) (if wsVal ex < wsVal r then assocSet m u r else m)
        by_cases hws : wsVal ex < wsVal r
        · -- strictly higher weightScore: replace the stored occurrence
          rw [if_pos hws]
          have hexm : (u, ex) ∈ m := assocGet_mem hget
          obtain ⟨hex1, hex2, hex3, hex4⟩ := hent (u, ex) hexm
          refine ⟨?_, fun kv hkv => ?_, fun i hi u' hu' hne' => ?_⟩
          · rw [map_fst_assocSet_of_present r hget]; exact hnd
          · rcases mem_assocSet hnd hkv with rfl | ⟨hkv, hkvne⟩
            · refine ⟨hurl, hemp, List.mem_append_right _ (List.mem_singleton_self r),
                fun i hi hiu => ?_⟩
              rcases List.mem_append.1 hi with hi | hi
              · exact le_of_lt (lt_of_le_of_lt (hex4 i hi (by simpa using hiu)) hws)
              · rw [List.mem_singleton.1 hi]
            · obtain ⟨h1, h2, h3, h4⟩ := hent kv hkv
              refine ⟨h1, h2, List.mem_append_left _ h3, fun i hi hiu => ?_⟩
              rcases List.mem_append.1 hi with hi | hi
              · exact h4 i hi hiu
              · rw [List.mem_singleton.1 hi] at hiu
                rw [hurl] at hiu
                injection hiu with hiu
                exact absurd hiu.symm hkvne
          · rcases List.mem_append.1 hi with hi | hi
            · exact isSome_assocGet_assocSet m u u' r (hcomp i hi u' hu' hne')
            · rw [List.mem_singleton.1 hi] at hu'
              rw [hurl] at hu'
              injection hu' with hu'
              subst hu'
              rw [assocGet_assocSet_self]
              rfl
        · -- not strictly higher: keep the stored occurrence
          rw [if_neg hws]
          have hexm : (u, ex) ∈ m := assocGet_mem hget
          refine ⟨hnd, fun kv hkv => ?_, fun i hi u' hu' hne' => ?_⟩
          · obtain ⟨h1, h2, h3, h4⟩ := hent kv hkv
            refine ⟨h1, h2, List.mem_append_left _ h3, fun i hi hiu => ?_⟩
            rcases List.mem_append.1 hi with hi | hi
            · exact h4 i hi hiu
            · have hir : i = r := List.mem_singleton.1 hi
              subst hir
              rw [hurl] at hiu
              injection hiu with hiu
              have hkv2 : kv.2 = ex := by
                have hx := assocGet_of_mem_nodup hnd hkv
                rw [← hiu, hget] at hx
                injection hx with hx
                exact hx.symm
              rw [hkv2]
              exact le_of_not_lt hws
          · rcases List.mem_append.1 hi with hi | hi
            · exact hcomp i hi u' hu' hne'
            · rw [List.mem_singleton.1 hi] at hu'
              rw [hurl] at hu'
              injection hu' with hu'
              subst hu'
              rw [hget]
              rfl

theorem dedup_foldl_inv (items : List WebItem) :
    ∀ (pr : List WebItem) (m : List (String × WebItem)), DedupInv pr m →
      DedupInv (pr ++ items) (items.foldl dedupStep m) := by
  induction items with
  | nil => intro pr m h; simpa using h
  | cons r rest ih =>
    intro pr m h
    have hstep := dedupStep_inv r h
    have := ih (pr ++ [r]) (dedupStep m r) hstep
    simpa [List.append_assoc] using this

theorem DedupInv_nil : DedupInv [] [] := by
  refine ⟨List.nodup_nil, ?_, ?_⟩ <;> intro kv hkv <;> cases hkv

/-- Specification of `uniqueResults`: pairwise-distinct urls; every survivor
is one of the input occurrences and carries the maximal `weightScore || 0`
among all input occurrences of its url. -/
theorem dedupByUrl_spec (items : List WebItem) :
    (dedupByUrl items).Pairwise (fun a b => a.url ≠ b.url) ∧
    ∀ o ∈ dedupByUrl items, o ∈ items ∧
      ∀ i ∈ items, i.url = o.url → wsVal i ≤ wsVal o := by
  have hinv := dedup_foldl_inv items [] [] DedupInv_nil
  rw [List.nil_append] at hinv
  obtain ⟨hnd, hent, _⟩ := hinv
  constructor
  · rw [dedupByUrl]
    rw [List.pairwise_map]
    have hkeys : (items.foldl dedupStep []).Pairwise (fun a b => a.1 ≠ b.1) := by
      rw [← List.pairwise_map (f := Prod.fst)]
      exact hnd
    refine hkeys.imp_of_mem ?_
    intro a b ha hb hab
    have h1 := (hent a ha).1
    have h2 := (hent b hb).1
    rw [h1, h2]
    intro hc
    injection hc with hc
    exact hab hc
  · intro o ho
    rw [dedupByUrl] at ho
    obtain ⟨kv, hkv, hkv2⟩ := List.mem_map.1 ho
    obtain ⟨h1, _, h3, h4⟩ := hent kv hkv
    subst hkv2
    exact ⟨h3, fun i hi hiu => h4 i hi (by rw [hiu, h1])⟩

theorem insertByWs_perm (x : WebItem) (l : List WebItem) :
    (insertByWs x l).Perm (x :: l) := by
  induction l with
  | nil => simp [insertByWs]
  | cons y ys ih =>
    rw [insertByWs]
    by_cases h : wsVal y < wsVal x
    · simp [h]
    · simp only [h, if_false]
      exact (ih.cons y).trans (List.Perm.swap x y ys)

theorem sortByWs_perm (l : List WebItem) : (sortByWs l).Perm l := by
  suffices h : ∀ (l acc : List WebItem),
      (l.foldl (fun a x => insertByWs x a) acc).Perm (acc ++ l) by
    simpa using h l []
  intro l
  induction l with
  | nil => simp
  | cons x xs ih =>
    intro acc
    refine ((ih (insertByWs x acc)).trans ?_)
    exact ((insertByWs_perm x acc).append_right xs).trans List.perm_middle.symm

theorem webSearchCollect_sublist_sorted (os : List ProviderOutcome)
    (bf : List (String × List RawItem)) (page : Nat) :
    (webSearchCollect os bf page).Sublist (sortByWs (dedupByUrl (webAllResults os bf))) := by
  rw [webSearchCollect]
  exact (List.take_sublist _ _).trans (List.drop_sublist _ _)

/-! ## Claim theorems: web merge -/

/-- C1: in every merged result set returned by `webSearch`, no two items
share a url, and each returned item is an occurrence from the pre-dedup
`allResults` list whose `weightScore || 0` is maximal among all occurrences
of its url — so whenever the same url arrives from several providers (or
twice from one), only an occurrence with the highest `weightScore` survives
to the returned page. -/
theorem webSearch_url_unique_max (os : List ProviderOutcome)
    (bf : List (String × List RawItem)) (page : Nat) :
    (webSearchCollect os bf page).Pairwise (fun a b => a.url ≠ b.url) ∧
    ∀ o ∈ webSearchCollect os bf page, o ∈ webAllResults os bf ∧
      ∀ i ∈ webAllResults os bf, i.url = o.url → wsVal i ≤ wsVal o := by
  obtain ⟨hpw, hmax⟩ := dedupByUrl_spec (webAllResults os bf)
  have hperm := sortByWs_perm (dedupByUrl (webAllResults os bf))
  have hsub := webSearchCollect_sublist_sorted os bf page
  have hsym : Symmetric (fun a b : WebItem => a.url ≠ b.url) :=
    fun a b h => fun hc => h hc.symm
  constructor
  · exact List.Pairwise.sublist hsub ((hperm.pairwise_iff (fun h => hsym h)).2 hpw)
  · intro o ho
    have : o ∈ dedupByUrl (webAllResults os bf) :=
      hperm.mem_iff.1 (hsub.subset ho)
    exact hmax o this

/-- C1 witness: two providers both produce url `u`; the returned set keeps
only the higher-scored occurrence, and the theorem's guarantees hold at this
concrete input. -/
theorem webSearch_url_unique_max_witness :
    ((webSearchCollect
        [⟨"A", [⟨"t1", "s1", some "u", some 1⟩], none, 1⟩,
         ⟨"B", [⟨"t2", "s2", some "u", some 1⟩], none, 3⟩] [] 1).Pairwise
      (fun a b => a.url ≠ b.url)) ∧
    ∀ o ∈ webSearchCollect
        [⟨"A", [⟨"t1", "s1", some "u", some 1⟩], none, 1⟩,
         ⟨"B", [⟨"t2", "s2", some "u", some 1⟩], none, 3⟩] [] 1,
      o ∈ webAllResults
        [⟨"A", [⟨"t1", "s1", some "u", some 1⟩], none, 1⟩,
         ⟨"B", [⟨"t2", "s2", some "u", some 1⟩], none, 3⟩] [] ∧
      ∀ i ∈ webAllResults
        [⟨"A", [⟨"t1", "s1", some "u", some 1⟩], none, 1⟩,
         ⟨"B", [⟨"t2", "s2", some "u", some 1⟩], none, 3⟩] [],
        i.url = o.url → wsVal i ≤ wsVal o :=
  webSearch_url_unique_max
    [⟨"A", [⟨"t1", "s1", some "u", some 1⟩], none, 1⟩,
     ⟨"B", [⟨"t2", "s2", some "u", some 1⟩], none, 3⟩] [] 1

/-! ## Outcome-loop projections -/

/-- The error record the loop pushes for an outcome, if any. -/
def errSel (p : ProviderOutcome) : Option (String × String) :=
  if jsTruthyStr p.error then some (p.name, p.error.getD "") else none

theorem foldl_outcomeStep_fst (os : List ProviderOutcome) :
    ∀ acc : List WebItem × List (String × String),
      (os.foldl outcomeStep acc).1 =
        os.foldl
          (fun a p =>
            if jsTruthyStr p.error then a
            else if 0 < p.results.length then
              a ++ p.results.map (enrichItem p.name p.weight)
            else a) acc.1 := by
  induction os with
  | nil => intro acc; rfl
  | cons p rest ih =>
    intro acc
    rw [List.foldl_cons, List.foldl_cons, ih]
    by_cases h : jsTruthyStr p.error
    · simp [outcomeStep, h]
    · by_cases h2 : 0 < p.results.length <;> simp [outcomeStep, h, h2]

theorem foldl_outcomeStep_snd (os : List ProviderOutcome) :
    ∀ acc : List WebItem × List (String × String),
      (os.foldl outcomeStep acc).2 = acc.2 ++ os.filterMap errSel := by
  induction os with
  | nil => intro acc; simp
  | cons p rest ih =>
    intro acc
    rw [List.foldl_cons, ih, List.filterMap_cons]
    by_cases h : jsTruthyStr p.error
    · simp [outcomeStep, errSel, h]
    · by_cases h2 : 0 < p.results.length <;> simp [outcomeStep, errSel, h, h2]

/-! ## Claim theorems: partial failure isolation and error metadata -/

/-- C2 counterexample: the merged value `webSearch` returns is **identical**
whether provider B fails with an error or succeeds with zero items — the
collected per-provider errors are only logged (`console.warn`/`console.error`)
and are not part of the return value, so they are not returned to the caller
as metadata. -/
theorem webSearch_errors_not_returned :
    webSearchCollect
        [⟨"A", [⟨"t", "s", some "u", some 1⟩], none, 3⟩,
         ⟨"B", [], some "boom", 2⟩] [] 1 =
      webSearchCollect
        [⟨"A", [⟨"t", "s", some "u", some 1⟩], none, 3⟩,
         ⟨"B", [], none, 2⟩] [] 1 ∧
    webErrors
        [⟨"A", [⟨"t", "s", some "u", some 1⟩], none, 3⟩,
         ⟨"B", [], some "boom", 2⟩] = [("B", "boom")] := by
  constructor
  · rfl
  · rfl

/-- C2 amended: the aggregation (a total function of the settled outcomes)
never raises; a failing provider contributes nothing and never disturbs its
siblings' merged items (dropping a failing outcome leaves the returned set
unchanged); and the loop records exactly one error entry per failed provider
— but these records stay internal (logged only): the returned value is the
item list alone, without error metadata. -/
theorem webSearch_failure_isolation :
    (∀ (os1 os2 : List ProviderOutcome) (b : ProviderOutcome)
        (bf : List (String × List RawItem)) (page : Nat),
      jsTruthyStr b.error = true →
        webSearchCollect (os1 ++ b :: os2) bf page =
          webSearchCollect (os1 ++ os2) bf page) ∧
    (∀ os : List ProviderOutcome, webErrors os = os.filterMap errSel) := by
  constructor
  · intro os1 os2 b bf page hb
    have hitems : (processOutcomes (os1 ++ b :: os2)).1 = (processOutcomes (os1 ++ os2)).1 := by
      rw [processOutcomes, processOutcomes, foldl_outcomeStep_fst, foldl_outcomeStep_fst]
      rw [List.foldl_append, List.foldl_append, List.foldl_cons]
      congr 1
      simp [hb]
    rw [webSearchCollect, webSearchCollect, webAllResults, webAllResults, hitems]
  · intro os
    rw [webErrors, processOutcomes, foldl_outcomeStep_snd]
    simp

/-- C2 amended witness: with providers A, B, C where B fails, the returned
set equals the one computed from A and C alone, and the internal error list
holds exactly the entry for B. -/
theorem webSearch_failure_isolation_witness :
    webSearchCollect
        [⟨"A", [⟨"ta", "sa", some "ua", some 1⟩], none, 3⟩,
         ⟨"B", [], some "boom", 2⟩,
         ⟨"C", [⟨"tc", "sc", some "uc", some 1⟩], none, 2⟩] [] 1 =
      webSearchCollect
        [⟨"A", [⟨"ta", "sa", some "ua", some 1⟩], none, 3⟩,
         ⟨"C", [⟨"tc", "sc", some "uc", some 1⟩], none, 2⟩] [] 1 ∧
    webErrors
        [⟨"A", [⟨"ta", "sa", some "ua", some 1⟩], none, 3⟩,
         ⟨"B", [], some "boom", 2⟩,
         ⟨"C", [⟨"tc", "sc", some "uc", some 1⟩], none, 2⟩] = [("B", "boom")] := by
  constructor
  · exact webSearch_failure_isolation.1
      [⟨"A", [⟨"ta", "sa", some "ua", some 1⟩], none, 3⟩]
      [⟨"C", [⟨"tc", "sc", some "uc", some 1⟩], none, 2⟩]
      ⟨"B", [], some "boom", 2⟩ [] 1 rfl
  · rw [webSearch_failure_isolation.2]
    rfl

/-! ## Claim theorems: the weight-score formula -/

/-- The claim's formula, stated from the spec's words (for comparison with
the source's `enrichItem`): `weightScore = providerWeight * max(rawScore, 1)`
with an absent `rawScore` defaulting to 1. -/
def specWeightScore (w : ℚ) (raw : Option ℚ) : ℚ :=
  w * max (raw.getD 1) 1

/-- C5 counterexample: the source computes
`weightScore = (weight || 1) * (score || 1)`, not
`weight * max(score, 1)`: for weight 3 and a provider-reported score of 1/2,
the code yields 3/2 while the claim's formula yields 3 — and 3/2 is below the
provider weight, refuting "weightScore is never below providerWeight". -/
theorem weightScore_differs_from_spec :
    (enrichItem "DuckDuckGo" 3 ⟨"t", "s", some "u", some (1/2)⟩).weightScore
        = some (3/2) ∧
    specWeightScore 3 (some (1/2)) = 3 ∧
    ¬ ((3 : ℚ) ≤ wsVal (enrichItem "DuckDuckGo" 3 ⟨"t", "s", some "u", some (1/2)⟩)) := by
  refine ⟨?_, ?_, ?_⟩
  · norm_num [enrichItem, jsNum]
  · norm_num [specWeightScore]
  · norm_num [enrichItem, jsNum, wsVal]

/-- C5 amended: `weightScore = (weight || 1) * (score || 1)`.  For a positive
provider weight this agrees with the claimed
`providerWeight * max(rawScore, 1)` — and is bounded below by the provider
weight — exactly when the raw score is absent, zero (both falsy, defaulting
to 1) or at least 1; a fractional or negative raw score multiplies the weight
directly and can push `weightScore` below `providerWeight`. -/
theorem weightScore_formula (name : String) (w : ℚ) (r : RawItem) (hw : 0 < w)
    (hs : r.score = none ∨ r.score = some 0 ∨ ∃ s, r.score = some s ∧ 1 ≤ s) :
    (enrichItem name w r).weightScore = some (specWeightScore w r.score) ∧
    w ≤ wsVal (enrichItem name w r) := by
  have hw0 : w ≠ 0 := ne_of_gt hw
  rcases hs with h | h | ⟨s, hs1, hs2⟩
  · constructor
    · simp [enrichItem, jsNum, specWeightScore, h, hw0]
    · simp [enrichItem, jsNum, wsVal, h, hw0]
  · constructor
    · simp [enrichItem, jsNum, specWeightScore, h, hw0]
    · simp [enrichItem, jsNum, wsVal, h, hw0]
  · have hs0 : s ≠ 0 := by intro hc; rw [hc] at hs2; norm_num at hs2
    constructor
    · simp [enrichItem, jsNum, specWeightScore, hs1, hw0, hs0, max_eq_left hs2]
    · simp only [enrichItem, jsNum, wsVal, hs1, hw0, hs0, if_neg]
      calc w = w * 1 := (mul_one w).symm
        _ ≤ w * s := by
          apply mul_le_mul_of_nonneg_left hs2 (le_of_lt hw)

/-- C5 amended witness: weight 3 with raw score 2 gives
`weightScore = 3 * max(2, 1) = 6 ≥ 3`. -/
theorem weightScore_formula_witness :
    (enrichItem "A" 3 ⟨"t", "s", some "u", some 2⟩).weightScore
        = some (specWeightScore 3 (some 2)) ∧
    (3 : ℚ) ≤ wsVal (enrichItem "A" 3 ⟨"t", "s", some "u", some 2⟩) :=
  weightScore_formula "A" 3 ⟨"t", "s", some "u", some 2⟩ (by norm_num)
    (Or.inr (Or.inr ⟨2, rfl, by norm_num⟩))

/-! ## Image search merge (`imageSearch`, source lines 1609–1722)

The merge loop stamps every accepted image with
`score = provider.weight * (Math.random() * 0.5 + 0.5)` (source line 1664).
The random source is modelled as an explicit stream `jitter : Nat → ℚ` of
the values `Math.random()` returns; draws are consumed in call order, one per
accepted image, tracked by a running draw counter. -/

structure ImageItem where
  title : String
  image : Option String
  provider : String
  weight : Option ℚ
  score : Option ℚ
deriving Repr, DecidableEq

structure ImageOutcome where
  name : String
  images : List ImageItem
  error : Option String
  weight : ℚ
deriving Repr, DecidableEq

/-- Indexed map: `mapWithIdx f k [a, b, ...] = [f k a, f (k+1) b, ...]`; used
to hand each accepted item its (global) random-draw index. -/
def mapWithIdx {γ δ : Type} (f : Nat → γ → δ) : Nat → List γ → List δ
  | _, [] => []
  | k, a :: as => f k a :: mapWithIdx f (k + 1) as

/-- The enrichment of one accepted image (source lines 1660–1665), with
`jit` the value drawn from `Math.random()` for this item. -/
def enrichImage (name : String) (weight : ℚ) (jit : ℚ) (img : ImageItem) : ImageItem :=
  { img with
    provider := name
    weight := some weight
    score := some (weight * (jit * (1/2) + 1/2)) }

/-- The provider loop of `imageSearch` (source lines 1649–1671), threading
the draw counter `k`: a provider with a truthy error is skipped; a provider
with images has them enriched — one `Math.random()` draw per image. -/
def imageWeightedGo (jitter : Nat → ℚ) : List ImageOutcome → Nat → List ImageItem
  | [], _ => []
  | p :: rest, k =>
    if jsTruthyStr p.error then imageWeightedGo jitter rest k
    else if 0 < p.images.length then
      mapWithIdx (fun n img => enrichImage p.name p.weight (jitter n) img) k p.images ++
        imageWeightedGo jitter rest (k + p.images.length)
    else imageWeightedGo jitter rest k

def imageWeighted (jitter : Nat → ℚ) (os : List ImageOutcome) : List ImageItem :=
  imageWeightedGo jitter os 0

/-- Number of `Math.random()` draws the provider loop makes. -/
def imageDrawCount : List ImageOutcome → Nat
  | [] => 0
  | p :: rest =>
    if jsTruthyStr p.error then imageDrawCount rest
    else p.images.length + imageDrawCount rest

/-- The sequential backfill loop (source lines 1673–1700): only entered when
fewer than 100 images were merged; each supplementary search is appended
(tagged with its provider name) unless 150 images have accumulated, in which
case the loop breaks.  Failed supplementary searches contribute nothing. -/
def imageBackfill (bf : List (String × List ImageItem)) (acc : List ImageItem) :
    List ImageItem :=
  bf.foldl
    (fun all s =>
      if 150 ≤ all.length then all
      else if 0 < s.2.length then
        all ++ s.2.map (fun img => { img with provider := s.1 })
      else all)
    acc

/-- The `Set`-based dedup of `imageSearch` (source lines 1702–1709): skip a
falsy `image` url or one already seen; first occurrence wins. -/
def imageDedup (items : List ImageItem) : List ImageItem :=
  (items.foldl
    (fun (acc : List ImageItem × List String) img =>
      match img.image with
      | none => acc
      | some u =>
        if u = "" then acc
        else if u ∈ acc.2 then acc
        else (acc.1 ++ [img], acc.2 ++ [u]))
    ([], [])).1

/-- `(a.weight || 1) * (a.score || 1)` — the image sort key (source lines
1711–1715). -/
def imgScore (i : ImageItem) : ℚ :=
  jsNum i.weight 1 * jsNum i.score 1

def insertByImgScore (x : ImageItem) : List ImageItem → List ImageItem
  | [] => [x]
  | y :: ys => if imgScore y < imgScore x then x :: y :: ys else y :: insertByImgScore x ys

def sortByImgScore (l : List ImageItem) : List ImageItem :=
  l.foldl (fun acc x => insertByImgScore x acc) []

/-- The full pure merge pipeline of `imageSearch` after the provider promises
settle (source lines 1649–1721): weight-and-jitter, optionally backfill,
dedup, sort descending, cap at 150. -/
def imageSearchCollect (os : List ImageOutcome) (jitter : Nat → ℚ)
    (bf : List (String × List ImageItem)) : List ImageItem :=
  let all0 := imageWeighted jitter os
  let allImages := if all0.length < 100 then imageBackfill bf all0 else all0
  (sortByImgScore (imageDedup allImages)).take 150

/-! ## Video search merge (`videoSearch`, source lines 2007–2124) -/

structure VideoItem where
  title : String
  videoId : Option String
  url : Option String
  provider : String
  weight : Option ℚ
  score : Option ℚ
deriving Repr, DecidableEq

structure VideoOutcome where
  name : String
  videos : List VideoItem
  error : Option String
  weight : ℚ
deriving Repr, DecidableEq

/-- `video.videoId || video.url` (source line 2103): a falsy `videoId`
(absent or `""`) falls back to the url. -/
def jsOrStr (a b : Option String) : Option String :=
  match a with
  | some s => if s = "" then b else some s
  | none => b

def enrichVideo (name : String) (weight : ℚ) (jit : ℚ) (v : VideoItem) : VideoItem :=
  { v with
    provider := name
    weight := some weight
    score := some (weight * (jit * (1/2) + 1/2)) }

/-- The provider loop of `videoSearch` (source lines 2046–2068), same
jitter-stamping pattern as images. -/
def videoWeightedGo (jitter : Nat → ℚ) : List VideoOutcome → Nat → List VideoItem
  | [], _ => []
  | p :: rest, k =>
    if jsTruthyStr p.error then videoWeightedGo jitter rest k
    else if 0 < p.videos.length then
      mapWithIdx (fun n v => enrichVideo p.name p.weight (jitter n) v) k p.videos ++
        videoWeightedGo jitter rest (k + p.videos.length)
    else videoWeightedGo jitter rest k

/-- The backfill loop (source lines 2070–2096): gate below 100, break at 150. -/
def videoBackfill (bf : List (String × List VideoItem)) (acc : List VideoItem) :
    List VideoItem :=
  bf.foldl
    (fun all s =>
      if 150 ≤ all.length then all
      else if 0 < s.2.length then
        all ++ s.2.map (fun v => { v with provider := s.1 })
      else all)
    acc

/-- The two-`Set` dedup of `videoSearch` (source lines 2098–2111): key on
`videoId || url`, skip falsy ids, ids already seen, or urls already seen
(urls are added to the url set even when absent, mirroring
`seenUrls.add(video.url)` on an `undefined` url). -/
def videoDedup (items : List VideoItem) : List VideoItem :=
  (items.foldl
    (fun (acc : List VideoItem × List String × List (Option String)) v =>
      match jsOrStr v.videoId v.url with
      | none => acc
      | some id =>
        if id = "" then acc
        else if id ∈ acc.2.1 ∨ v.url ∈ acc.2.2 then acc
        else (acc.1 ++ [v], acc.2.1 ++ [id], acc.2.2 ++ [v.url]))
    ([], [], [])).1

def vidScore (v : VideoItem) : ℚ :=
  jsNum v.weight 1 * jsNum v.score 1

def insertByVidScore (x : VideoItem) : List VideoItem → List VideoItem
  | [] => [x]
  | y :: ys => if vidScore y < vidScore x then x :: y :: ys else y :: insertByVidScore x ys

def sortByVidScore (l : List VideoItem) : List VideoItem :=
  l.foldl (fun acc x => insertByVidScore x acc) []

/-- The full pure merge pipeline of `videoSearch` (source lines 2046–2123):
weight-and-jitter, optionally backfill, dedup, sort descending, cap at 150. -/
def videoSearchCollect (os : List VideoOutcome) (jitter : Nat → ℚ)
    (bf : List (String × List VideoItem)) : List VideoItem :=
  let all0 := videoWeightedGo jitter os 0
  let allVideos := if all0.length < 100 then videoBackfill bf all0 else all0
  (sortByVidScore (videoDedup allVideos)).take 150

/-! ## News search merge (`newsSearch`, source lines 2130–2217) -/

structure NewsItem where
  title : String
  url : Option String
  provider : String
  weight : Option ℚ
  score : Option ℚ
deriving Repr, DecidableEq

structure NewsOutcome where
  name : String
  articles : List NewsItem
  error : Option String
  weight : ℚ
deriving Repr, DecidableEq

def enrichArticle (name : String) (weight : ℚ) (jit : ℚ) (a : NewsItem) : NewsItem :=
  { a with
    provider := name
    weight := some weight
    score := some (weight * (jit * (1/2) + 1/2)) }

/-- The provider loop of `newsSearch` (source lines 2166–2188), same
jitter-stamping pattern as images. -/
def newsWeightedGo (jitter : Nat → ℚ) : List NewsOutcome → Nat → List NewsItem
  | [], _ => []
  | p :: rest, k =>
    if jsTruthyStr p.error then newsWeightedGo jitter rest k
    else if 0 < p.articles.length then
      mapWithIdx (fun n a => enrichArticle p.name p.weight (jitter n) a) k p.articles ++
        newsWeightedGo jitter rest (k + p.articles.length)
    else newsWeightedGo jitter rest k

/-- The `Set`-based dedup of `newsSearch` (source lines 2202–2209). -/
def newsDedup (items : List NewsItem) : List NewsItem :=
  (items.foldl
    (fun (acc : List NewsItem × List String) a =>
      match a.url with
      | none => acc
      | some u =>
        if u = "" then acc
        else if u ∈ acc.2 then acc
        else (acc.1 ++ [a], acc.2 ++ [u]))
    ([], [])).1

def newsScore (a : NewsItem) : ℚ :=
  jsNum a.weight 1 * jsNum a.score 1

def insertByNewsScore (x : NewsItem) : List NewsItem → List NewsItem
  | [] => [x]
  | y :: ys =>
    if newsScore y < newsScore x then x :: y :: ys else y :: insertByNewsScore x ys

def sortByNewsScore (l : List NewsItem) : List NewsItem :=
  l.foldl (fun acc x => insertByNewsScore x acc) []

/-- The full pure merge pipeline of `newsSearch` (source lines 2166–2216):
weight-and-jitter, strict-mode blocked-domain filter, dedup, sort descending,
cap at 50.  The blocked-domain test (source lines 2190–2200) runs
`extractDomain` — URL parsing, an external capability — over each article's
url and substring-matches a block list; it enters the model as the abstract
predicate `blocked`.  `newsSearch` has no backfill stage. -/
def newsSearchCollect (os : List NewsOutcome) (jitter : Nat → ℚ)
    (strict : Bool) (blocked : NewsItem → Bool) : List NewsItem :=
  let all0 := newsWeightedGo jitter os 0
  let allArticles := if strict then all0.filter (fun a => ! blocked a) else all0
  (sortByNewsScore (newsDedup allArticles)).take 50

/-! ## Claim theorems: determinism of the merge -/

theorem mapWithIdx_congr {γ δ : Type} (f g : Nat → γ → δ) (l : List γ) :
    ∀ k, (∀ n a, k ≤ n → n < k + l.length → f n a = g n a) →
      mapWithIdx f k l = mapWithIdx g k l := by
  induction l with
  | nil => intro k _; rfl
  | cons a as ih =>
    intro k h
    rw [mapWithIdx, mapWithIdx]
    rw [h k a (le_refl k) (by rw [List.length_cons]; omega)]
    rw [ih (k + 1) (fun n b h1 h2 => h n b (by omega) (by rw [List.length_cons]; omega))]

theorem imageWeightedGo_congr (j1 j2 : Nat → ℚ) (os : List ImageOutcome) :
    ∀ k, (∀ n, k ≤ n → n < k + imageDrawCount os → j1 n = j2 n) →
      imageWeightedGo j1 os k = imageWeightedGo j2 os k := by
  induction os with
  | nil => intro k _; rfl
  | cons p rest ih =>
    intro k h
    rw [imageWeightedGo, imageWeightedGo]
    by_cases he : jsTruthyStr p.error
    · simp only [he, if_true]
      exact ih k (fun n h1 h2 => h n h1 (by rw [imageDrawCount, if_pos he]; omega))
    · have hcount : imageDrawCount (p :: rest) = p.images.length + imageDrawCount rest := by
        rw [imageDrawCount, if_neg he]
      simp only [he, Bool.false_eq_true, if_false]
      by_cases hl : 0 < p.images.length
      · rw [if_pos hl, if_pos hl]
        rw [mapWithIdx_congr _ _ p.images k
          (fun n a h1 h2 => by rw [h n h1 (by omega)])]
        rw [ih (k + p.images.length) (fun n h1 h2 => h n (by omega) (by omega))]
      · rw [if_neg hl, if_neg hl]
        exact ih k (fun n h1 h2 => h n h1 (by omega))

/-- C8 counterexample: the `imageSearch` merge is **not** a function of the
`ProviderOutcome`s alone: with the same two fixed outcomes, two runs whose
`Math.random()` draws differ produce different item orderings (the jitter
stamped into `score` at source line 1664 reorders the sort). -/
theorem imageMerge_not_deterministic :
    imageSearchCollect
        [⟨"P1", [⟨"A", some "a", "", none, none⟩], none, 1⟩,
         ⟨"P2", [⟨"B", some "b", "", none, none⟩], none, 1⟩]
        (fun _ => 0) [] ≠
      imageSearchCollect
        [⟨"P1", [⟨"A", some "a", "", none, none⟩], none, 1⟩,
         ⟨"P2", [⟨"B", some "b", "", none, none⟩], none, 1⟩]
        (fun n => if n = 0 then 0 else 1) [] := by
  norm_num [imageSearchCollect, imageWeighted, imageWeightedGo, jsTruthyStr, mapWithIdx,
    enrichImage, imageBackfill, imageDedup, sortByImgScore, insertByImgScore, imgScore,
    jsNum, List.foldl]

/-- C8 amended: the merge is deterministic given the `ProviderOutcome`s
*and* the drawn jitter values: two runs of the `imageSearch` merge over the
same outcomes and backfill produce identical output whenever their random
draws coincide (only the first `imageDrawCount os` draws are consumed).
`webSearch`'s merge draws no randomness and is a plain function of its
outcomes (`webSearchCollect`); the image/video/news merges are functions of
outcomes and jitter stream. -/
theorem imageMerge_deterministic_given_jitter (os : List ImageOutcome)
    (bf : List (String × List ImageItem)) (j1 j2 : Nat → ℚ)
    (h : ∀ n, n < imageDrawCount os → j1 n = j2 n) :
    imageSearchCollect os j1 bf = imageSearchCollect os j2 bf := by
  have hw : imageWeighted j1 os = imageWeighted j2 os := by
    rw [imageWeighted, imageWeighted]
    exact imageWeightedGo_congr j1 j2 os 0 (fun n _ h2 => h n (by omega))
  rw [imageSearchCollect, imageSearchCollect, imageWeighted] at *
  rw [hw]

/-- C8 amended witness: with two one-image providers (two draws) and two
jitter streams that agree on the first two draws, the merges coincide. -/
theorem imageMerge_deterministic_given_jitter_witness :
    imageSearchCollect
        [⟨"P1", [⟨"A", some "a", "", none, none⟩], none, 1⟩,
         ⟨"P2", [⟨"B", some "b", "", none, none⟩], none, 1⟩]
        (fun _ => 1/2) [] =
      imageSearchCollect
        [⟨"P1", [⟨"A", some "a", "", none, none⟩], none, 1⟩,
         ⟨"P2", [⟨"B", some "b", "", none, none⟩], none, 1⟩]
        (fun n => if n < 2 then 1/2 else 0) [] :=
  imageMerge_deterministic_given_jitter
    [⟨"P1", [⟨"A", some "a", "", none, none⟩], none, 1⟩,
     ⟨"P2", [⟨"B", some "b", "", none, none⟩], none, 1⟩]
    [] (fun _ => 1/2) (fun n => if n < 2 then 1/2 else 0)
    (by
      intro n hn
      simp only [imageDrawCount, jsTruthyStr, List.length] at hn
      norm_num at hn
      interval_cases n <;> norm_num)

/-! ## Claim theorems: result-count caps -/

/-- C10: whatever the providers return or how they fail, every category
search returns a bounded list: `webSearch` at most `RESULTS_PER_PAGE = 100`
items (one page slice), `imageSearch` and `videoSearch` at most 150, and
`newsSearch` at most 50. -/
theorem category_result_caps :
    (∀ (os : List ProviderOutcome) (bf : List (String × List RawItem)) (page : Nat),
      (webSearchCollect os bf page).length ≤ RESULTS_PER_PAGE) ∧
    (∀ (os : List ImageOutcome) (jitter : Nat → ℚ) (bf : List (String × List ImageItem)),
      (imageSearchCollect os jitter bf).length ≤ 150) ∧
    (∀ (os : List VideoOutcome) (jitter : Nat → ℚ) (bf : List (String × List VideoItem)),
      (videoSearchCollect os jitter bf).length ≤ 150) ∧
    (∀ (os : List NewsOutcome) (jitter : Nat → ℚ) (strict : Bool)
        (blocked : NewsItem → Bool),
      (newsSearchCollect os jitter strict blocked).length ≤ 50) := by
  refine ⟨fun os bf page => ?_, fun os jitter bf => ?_, fun os jitter bf => ?_,
    fun os jitter strict blocked => ?_⟩
  · rw [webSearchCollect]
    simp only [List.length_take]
    exact min_le_left _ _
  · rw [imageSearchCollect]
    simp only [List.length_take]
    exact min_le_left _ _
  · rw [videoSearchCollect]
    simp only [List.length_take]
    exact min_le_left _ _
  · rw [newsSearchCollect]
    simp only [List.length_take]
    exact min_le_left _ _

end SearchApi
